import Mathlib

/-!
Verification of the PersistentMap repository (persistent_map.h and its test
driver) against its natural-language specification.

The header sketches a persistent ordered map as a size-augmented binary search
tree of reference-counted immutable nodes.  We embed node graphs as a store
(list) of nodes addressed by position; a `node*` is an `Option Nat` address,
the null pointer being `none`.  Mutating operations (which the header only
declares) are modelled from the spec as path-copying functions that append new
nodes to the store and never change an existing slot, mirroring the C++
semantics where old shared_ptr-owned nodes are never written.
-/

namespace PMap

/-- Embedding of `struct node` (persistent_map.h lines 23-66): a value pair
`_v`, the subtree element count `_n`, and child references `_l`, `_r`
(absent = null).  Keys and mapped values are specialised to `Nat`, matching
the instantiation `persistent::map<int, int>` used by the test driver. -/
structure node where
  _v : Nat × Nat
  _n : Nat
  _l : Option Nat
  _r : Option Nat
deriving DecidableEq, Repr

/-- Default node used only to total out-of-range store reads. -/
def dnode : node := ⟨(0, 0), 0, none, none⟩

/-- A store of nodes; an address is a position in the list.  Operations only
ever append, which models allocation of fresh immutable nodes. -/
abbrev Store := List node

/-- A child reference is below a bound (absent references trivially so). -/
def optLt : Option Nat → Nat → Bool
  | none, _ => true
  | some b, i => decide (b < i)

/-- Both child references of a node point strictly below the node's own
address.  Nodes are always allocated after their children (path copying
rebuilds bottom-up), so every store the program builds satisfies this. -/
def okNode (nd : node) (i : Nat) : Bool :=
  optLt nd._l i && optLt nd._r i

/-- Well-formed store: every node's children live at strictly smaller
addresses.  This rules out cycles and dangling references. -/
def wfStore (s : Store) : Prop :=
  ∀ i, i < s.length → okNode ((s[i]?).getD dnode) i = true

instance (s : Store) : Decidable (wfStore s) :=
  Nat.decidableBallLT s.length _

/-- Stored subtree count of a referenced node (`_n`), 0 for an absent
reference.  This is the count `insert`/`erase` recompute bottom-up. -/
def sizeAt (s : Store) : Option Nat → Nat
  | none => 0
  | some a =>
    match s[a]? with
    | none => 0
    | some nd => nd._n

/-- Embedding of `map::size` (lines 234-236): `_root ? _root->_n : 0`. -/
def mapSize (s : Store) (r : Option Nat) : Nat :=
  match r with
  | none => 0
  | some a => ((s[a]?).getD dnode)._n

/-- Embedding of `map::empty` (lines 230-232): `size() == 0`. -/
def mapEmpty (s : Store) (r : Option Nat) : Bool :=
  mapSize s r == 0

/-- Root of a default-constructed map (line 190): the `shared_ptr` member
`_root` is value-initialised, i.e. null. -/
def defaultRoot : Option Nat := none

/-- Fuel sufficing for any descent from a root in a well-formed store:
addresses strictly decrease along child edges, so `a + 1` steps reach
every node below address `a`. -/
def fuelR : Option Nat → Nat
  | none => 0
  | some a => a + 1

/-- In-order traversal of the subtree at a reference, fuelled. -/
def inorderF (s : Store) : Nat → Option Nat → List (Nat × Nat)
  | _, none => []
  | 0, some _ => []
  | f + 1, some a =>
    match s[a]? with
    | none => []
    | some nd => inorderF s f nd._l ++ nd._v :: inorderF s f nd._r

/-- In-order key/value sequence of a map version. -/
def inorder (s : Store) (r : Option Nat) : List (Nat × Nat) :=
  inorderF s (fuelR r) r

/-- Size invariant of the spec: every node in the subtree stores
`_n == 1 + size(left) + size(right)` (absent subtree contributing 0). -/
def sizeInvF (s : Store) : Nat → Option Nat → Bool
  | _, none => true
  | 0, some _ => false
  | f + 1, some a =>
    match s[a]? with
    | none => false
    | some nd =>
      (nd._n == 1 + sizeAt s nd._l + sizeAt s nd._r)
        && sizeInvF s f nd._l && sizeInvF s f nd._r

/-- Size invariant checked from the root with canonical fuel. -/
def sizeOk (s : Store) (r : Option Nat) : Bool :=
  sizeInvF s (fuelR r) r

/-- Lower bound check for BST ordering (none = unbounded). -/
def okLo : Option Nat → Nat → Bool
  | none, _ => true
  | some lo, k => decide (lo < k)

/-- Upper bound check for BST ordering (none = unbounded). -/
def okHi : Option Nat → Nat → Bool
  | none, _ => true
  | some hi, k => decide (k < hi)

/-- BST ordering invariant with explicit bounds, fuelled. -/
def bstF (s : Store) : Nat → Option Nat → Option Nat → Option Nat → Bool
  | _, none, _, _ => true
  | 0, some _, _, _ => false
  | f + 1, some a, lo, hi =>
    match s[a]? with
    | none => false
    | some nd =>
      okLo lo nd._v.1 && okHi hi nd._v.1
        && bstF s f nd._l lo (some nd._v.1)
        && bstF s f nd._r (some nd._v.1) hi

/-- BST ordering invariant from the root. -/
def bstOk (s : Store) (r : Option Nat) : Bool :=
  bstF s (fuelR r) r none none

/-- Embedding of the node constructor `node(value v) : _v(v), _n(0) {}`
(line 24): both `shared_ptr` children default to null and `_n` is
initialised to 0. -/
def nodeNew (v : Nat × Nat) : node := ⟨v, 0, none, none⟩

/-- Result of running the rank-descent loop of `node::operator+`:
`ok a` = the loop exited returning the node at address `a`;
`err` = the loop dereferenced an absent (null) reference;
`out` = the given step budget was exhausted. -/
inductive RankRes where
  | ok : Nat → RankRes
  | err : RankRes
  | out : RankRes
deriving DecidableEq, Repr

/-- The loop exit test `while (rhs || next == left)` of `node::operator+`
(line 50), with pointer equality as address equality. -/
def contCond (rhs : Nat) (next left : Option Nat) : Bool :=
  (rhs != 0) || decide (next = left)

/-- Embedding of the loop of `node::operator+` (lines 34-52), step-indexed.
State on entry of an iteration: remaining index `rhs` and pointer `next`.
The body executes `current = next; next = next->right(); left = next->left();`
then the conditional index adjustment, then the exit test.  Dereferencing an
absent reference (null `->right()`, `->left()` or `->_n`) yields `err`. -/
def opPlusLoop (s : Store) : Nat → Nat → Option Nat → RankRes
  | 0, _, _ => .out
  | _ + 1, _, none => .err
  | f + 1, rhs, some a =>
    match s[a]? with
    | none => .err
    | some nd =>
      match nd._r with
      | none => .err
      | some b =>
        match s[b]? with
        | none => .err
        | some bnd =>
          match bnd._l with
          | none =>
            if contCond rhs (some b) none then opPlusLoop s f rhs (some b)
            else .ok a
          | some la =>
            match s[la]? with
            | none => .err
            | some lnd =>
              if rhs < lnd._n then
                if contCond rhs (some la) (some la) then opPlusLoop s f rhs (some la)
                else .ok a
              else
                if contCond (rhs - lnd._n) (some b) (some la) then
                  opPlusLoop s f (rhs - lnd._n) (some b)
                else .ok a

/-- Embedding of `node::operator+` applied to the node at address `a`:
the loop starts with `next = this`. -/
def opPlus (s : Store) (f : Nat) (a : Nat) (rhs : Nat) : RankRes :=
  opPlusLoop s f rhs (some a)

/-- Embedding of the data of `map::iterator` / `map::const_iterator`
(lines 86-172): a rank index and a root reference. -/
structure iter where
  _index : Nat
  _root : Option Nat
deriving DecidableEq, Repr

/-- Embedding of `iterator::operator==` (lines 110-112):
`return _index == rhs._index;`. -/
def iterEq (i j : iter) : Bool := i._index == j._index

/-- Embedding of `iterator::operator!=` (lines 113-115):
`return _index != rhs._index;`. -/
def iterNe (i j : iter) : Bool := i._index != j._index

/-- Embedding of `const_iterator::operator==` (lines 154-156). -/
def citerEq (i j : iter) : Bool := i._index == j._index

/-- Embedding of `const_iterator::operator!=` (lines 157-159). -/
def citerNe (i j : iter) : Bool := i._index != j._index

/-- Embedding of iterator dereference (lines 117-123, 161-167) read as the
intended delegation to the rank descent `node::operator+` on the iterator's
root with its rank index: a null root faults. -/
def iterDeref (s : Store) (f : Nat) (it : iter) : RankRes :=
  match it._root with
  | none => .err
  | some a => opPlus s f a it._index

/-- Embedding of `map::value_compare::operator()` (lines 185-187):
`return comp(x.first, y.first);`, generic in the key and mapped types. -/
def value_compare_call {K T : Type} (comp : K → K → Bool) (x y : K × T) : Bool :=
  comp x.1 y.1

/-- A map handle: root reference plus comparator, generic in key/value
types (spec section 3, Map Handle). -/
structure mapH (K T : Type) where
  root : Option Nat
  comp : K → K → Bool

/-- Embedding of `map::key_comp` (line 269): returns the map's comparator. -/
def key_comp {K T : Type} (m : mapH K T) : K → K → Bool := m.comp

/-- Embedding of `map::value_comp` (line 270): returns a `value_compare`
built from the map's comparator; calling it is `value_compare_call`. -/
def value_comp {K T : Type} (m : mapH K T) : K × T → K × T → Bool :=
  value_compare_call m.comp

/-- Modelled from the spec: `map::find` is declared but not defined in the
header (lines 273-274); spec section 4.2 specifies a standard BST descent
using the comparator, returning the associated value or a not-found signal.
Fuelled; in a well-formed store fuel `a + 1` suffices from root address `a`. -/
def findF (s : Store) : Nat → Option Nat → Nat → Option Nat
  | _, none, _ => none
  | 0, some _, _ => none
  | f + 1, some a, k =>
    match s[a]? with
    | none => none
    | some nd =>
      if k < nd._v.1 then findF s f nd._l k
      else if nd._v.1 < k then findF s f nd._r k
      else some nd._v.2

/-- Modelled from the spec: lookup from a map root with canonical fuel. -/
def mapFind (s : Store) (r : Option Nat) (k : Nat) : Option Nat :=
  findF s (fuelR r) r k

/-- Modelled from the spec: `map::insert` is declared but not defined in the
header (line 252); spec section 4.3 specifies a path-copying insert that
rebuilds every node on the search path (new nodes appended to the store,
untouched subtrees shared by reference, sizes recomputed bottom-up) and
returns the new root together with a flag telling whether a key was added;
when the key is already present the unmodified handle is returned.
Weight-balance repair (spec 4.5) is omitted: it also only allocates new
nodes, so it does not affect the properties proved here.
Returns (new store, new root address, added flag). -/
def insertGo (s : Store) : Nat → Option Nat → Nat → Nat → Store × Nat × Bool
  | _, none, k, x => (s ++ [⟨(k, x), 1, none, none⟩], s.length, true)
  | 0, some a, _, _ => (s, a, false)
  | f + 1, some a, k, x =>
    match s[a]? with
    | none => (s, a, false)
    | some nd =>
      if k < nd._v.1 then
        match insertGo s f nd._l k x with
        | (s1, b, added) =>
          if added then
            (s1 ++ [⟨nd._v, 1 + sizeAt s1 (some b) + sizeAt s1 nd._r, some b, nd._r⟩],
             s1.length, true)
          else (s, a, false)
      else if nd._v.1 < k then
        match insertGo s f nd._r k x with
        | (s1, b, added) =>
          if added then
            (s1 ++ [⟨nd._v, 1 + sizeAt s1 nd._l + sizeAt s1 (some b), nd._l, some b⟩],
             s1.length, true)
          else (s, a, false)
      else (s, a, false)

/-- Modelled from the spec: insert from a map root with canonical fuel. -/
def mapInsert (s : Store) (r : Option Nat) (k x : Nat) : Store × Nat × Bool :=
  insertGo s (fuelR r) r k x

/-- Modelled from the spec: value pair of the leftmost (minimal) node of the
subtree at address `a`, used by erase to promote the in-order successor
(spec section 4.4). -/
def findMinF (s : Store) : Nat → Nat → Nat × Nat
  | 0, _ => (0, 0)
  | f + 1, a =>
    match s[a]? with
    | none => (0, 0)
    | some nd =>
      match nd._l with
      | none => nd._v
      | some b => findMinF s f b

/-- Modelled from the spec: `map::erase` is declared but not defined in the
header (lines 262-264); spec section 4.4 specifies a path-copying erase:
descend to the key; a node with at most one child is spliced out by promoting
that child; a node with two children is replaced by its in-order successor,
which is recursively erased from the right subtree; every rebuilt ancestor is
a fresh node sharing its untouched subtree, sizes recomputed bottom-up; if
the key is absent the unchanged handle is returned with a not-found flag.
Weight-balance repair (spec 4.5) is omitted as in `insertGo`.
Returns (new store, new root reference, removed flag). -/
def eraseGo (s : Store) : Nat → Option Nat → Nat → Store × Option Nat × Bool
  | _, none, _ => (s, none, false)
  | 0, some a, _ => (s, some a, false)
  | f + 1, some a, k =>
    match s[a]? with
    | none => (s, some a, false)
    | some nd =>
      if k < nd._v.1 then
        match eraseGo s f nd._l k with
        | (s1, l2, removed) =>
          if removed then
            (s1 ++ [⟨nd._v, 1 + sizeAt s1 l2 + sizeAt s1 nd._r, l2, nd._r⟩],
             some s1.length, true)
          else (s, some a, false)
      else if nd._v.1 < k then
        match eraseGo s f nd._r k with
        | (s1, r2, removed) =>
          if removed then
            (s1 ++ [⟨nd._v, 1 + sizeAt s1 nd._l + sizeAt s1 r2, nd._l, r2⟩],
             some s1.length, true)
          else (s, some a, false)
      else
        match nd._l, nd._r with
        | none, _ => (s, nd._r, true)
        | some _, none => (s, nd._l, true)
        | some _, some ra =>
          match eraseGo s f (some ra) (findMinF s f ra).1 with
          | (s1, r2, _) =>
            (s1 ++ [⟨findMinF s f ra, 1 + sizeAt s1 nd._l + sizeAt s1 r2, nd._l, r2⟩],
             some s1.length, true)

/-- Modelled from the spec: erase from a map root with canonical fuel. -/
def mapErase (s : Store) (r : Option Nat) (k : Nat) : Store × Option Nat × Bool :=
  eraseGo s (fuelR r) r k

/-- A mutating operation on a map handle: insert a key/value pair or erase a
key (the two operations named by the persistence property). -/
inductive Op where
  | ins : Nat → Nat → Op
  | del : Nat → Op

/-- Apply one operation to a handle (store plus root), producing the new
version's handle; the store is shared and only ever appended to. -/
def applyOp (p : Store × Option Nat) (op : Op) : Store × Option Nat :=
  match op with
  | .ins k x =>
    match mapInsert p.1 p.2 k x with
    | (s2, b, _) => (s2, some b)
  | .del k =>
    match mapErase p.1 p.2 k with
    | (s2, r2, _) => (s2, r2)

/-- Apply a sequence of further operations, each to the previous result. -/
def applyOps (p : Store × Option Nat) (ops : List Op) : Store × Option Nat :=
  ops.foldl applyOp p

/-- Store extension: `u` is `s` with zero or more nodes appended.  Mutating
operations only extend the store, which is the formal content of "old nodes
are never touched". -/
def Exts (s u : Store) : Prop := ∃ t, u = s ++ t

/-- A single-node tree with correct size field: key 7, value 70, count 1. -/
def store1 : Store := [⟨(7, 70), 1, none, none⟩]

/-- A balanced three-node tree with correct size fields: node 0 = (1,10),
node 1 = (3,30), node 2 = root (2,20) with left child 0 and right child 1. -/
def store3 : Store :=
  [⟨(1, 10), 1, none, none⟩, ⟨(3, 30), 1, none, none⟩, ⟨(2, 20), 3, some 0, some 1⟩]

/-- The store used by the witnesses: one node, key 5, value 50, count 1. -/
def store5 : Store := [⟨(5, 50), 1, none, none⟩]

theorem exts_refl (s : Store) : Exts s s := ⟨[], by simp⟩

theorem exts_concat (s : Store) (nd : node) : Exts s (s ++ [nd]) := ⟨[nd], rfl⟩

theorem exts_trans {s u v : Store} (h1 : Exts s u) (h2 : Exts u v) : Exts s v := by
  obtain ⟨t1, rfl⟩ := h1
  obtain ⟨t2, rfl⟩ := h2
  exact ⟨t1 ++ t2, List.append_assoc s t1 t2⟩

theorem exts_length {s u : Store} (h : Exts s u) : s.length ≤ u.length := by
  obtain ⟨t, rfl⟩ := h
  simp

theorem exts_lookup {s u : Store} (h : Exts s u) {a : Nat} (ha : a < s.length) :
    u[a]? = s[a]? := by
  obtain ⟨t, rfl⟩ := h
  exact List.getElem?_append_left ha

theorem lookup_concat (s : Store) (nd : node) : (s ++ [nd])[s.length]? = some nd := by
  simp

theorem lookup_lt {s : Store} {a : Nat} {nd : node} (h : s[a]? = some nd) :
    a < s.length :=
  (List.getElem?_eq_some.mp h).1

theorem wf_lookup {s : Store} (hwf : wfStore s) {a : Nat} {nd : node}
    (h : s[a]? = some nd) : okNode nd a = true := by
  have := hwf a (lookup_lt h)
  rwa [h] at this

theorem optLt_mono {c : Option Nat} {a m : Nat} (h : optLt c a = true) (ham : a ≤ m) :
    optLt c m = true := by
  cases c with
  | none => rfl
  | some b =>
    simp only [optLt, decide_eq_true_eq] at h ⊢
    omega

theorem optLt_some {b a : Nat} : optLt (some b) a = true ↔ b < a := by
  simp [optLt]

theorem okNode_parts {nd : node} {a : Nat} (h : okNode nd a = true) :
    optLt nd._l a = true ∧ optLt nd._r a = true := by
  simpa [okNode, Bool.and_eq_true] using h

theorem wf_concat {s : Store} {nd : node} (hwf : wfStore s)
    (hnd : okNode nd s.length = true) : wfStore (s ++ [nd]) := by
  intro i hi
  rw [List.length_append, List.length_singleton] at hi
  rcases Nat.lt_succ_iff_lt_or_eq.mp hi with hlt | heq
  · rw [List.getElem?_append_left hlt]
    exact hwf i hlt
  · subst heq
    rw [lookup_concat]
    exact hnd

theorem sizeAt_exts {s u : Store} (h : Exts s u) {c : Option Nat}
    (hc : optLt c s.length = true) : sizeAt u c = sizeAt s c := by
  cases c with
  | none => rfl
  | some b =>
    rw [optLt_some] at hc
    simp only [sizeAt]
    rw [exts_lookup h hc]

theorem inorderF_none (s : Store) (f : Nat) : inorderF s f none = [] := by
  cases f <;> rfl

theorem findF_none (s : Store) (f k : Nat) : findF s f none k = none := by
  cases f <;> rfl

theorem sizeInvF_none (s : Store) (f : Nat) : sizeInvF s f none = true := by
  cases f <;> rfl

/-- In-order traversal only depends on the slots below the root's address:
it is unchanged by appending nodes to the store and by enlarging the fuel. -/
theorem inorderF_stable (s t : Store) (hwf : wfStore s) :
    ∀ a, a < s.length → ∀ f g, a < f → a < g →
      inorderF (s ++ t) f (some a) = inorderF s g (some a) := by
  intro a
  induction a using Nat.strongRecOn with
  | ind a ih =>
    intro ha f g hf hg
    obtain ⟨f, rfl⟩ : ∃ f2, f = f2 + 1 := ⟨f - 1, by omega⟩
    obtain ⟨g, rfl⟩ : ∃ g2, g = g2 + 1 := ⟨g - 1, by omega⟩
    cases hsa : s[a]? with
    | none =>
      have hsa2 : (s ++ t)[a]? = none := by rw [List.getElem?_append_left ha, hsa]
      simp only [inorderF, hsa, hsa2]
    | some nd =>
      have hsa2 : (s ++ t)[a]? = some nd := by rw [List.getElem?_append_left ha, hsa]
      simp only [inorderF, hsa, hsa2]
      obtain ⟨h1, h2⟩ := okNode_parts (wf_lookup hwf hsa)
      have hchild : ∀ c, optLt c a = true →
          inorderF (s ++ t) f c = inorderF s g c := by
        intro c hc
        cases c with
        | none => rw [inorderF_none, inorderF_none]
        | some b =>
          rw [optLt_some] at hc
          exact ih b hc (hc.trans ha) f g (by omega) (by omega)
      rw [hchild _ h1, hchild _ h2]

/-- Lookup only depends on the slots below the root's address. -/
theorem findF_stable (s t : Store) (hwf : wfStore s) :
    ∀ a, a < s.length → ∀ f g k, a < f → a < g →
      findF (s ++ t) f (some a) k = findF s g (some a) k := by
  intro a
  induction a using Nat.strongRecOn with
  | ind a ih =>
    intro ha f g k hf hg
    obtain ⟨f, rfl⟩ : ∃ f2, f = f2 + 1 := ⟨f - 1, by omega⟩
    obtain ⟨g, rfl⟩ : ∃ g2, g = g2 + 1 := ⟨g - 1, by omega⟩
    cases hsa : s[a]? with
    | none =>
      have hsa2 : (s ++ t)[a]? = none := by rw [List.getElem?_append_left ha, hsa]
      simp only [findF, hsa, hsa2]
    | some nd =>
      have hsa2 : (s ++ t)[a]? = some nd := by rw [List.getElem?_append_left ha, hsa]
      simp only [findF, hsa, hsa2]
      obtain ⟨h1, h2⟩ := okNode_parts (wf_lookup hwf hsa)
      have hchild : ∀ c, optLt c a = true →
          findF (s ++ t) f c k = findF s g c k := by
        intro c hc
        cases c with
        | none => rw [findF_none, findF_none]
        | some b =>
          rw [optLt_some] at hc
          exact ih b hc (hc.trans ha) f g k (by omega) (by omega)
      rw [hchild _ h1, hchild _ h2]

/-- The in-order sequence of a bounded root is unchanged by extending the
store: old versions are read through untouched slots only. -/
theorem inorder_exts {s u : Store} (hwf : wfStore s) {r : Option Nat}
    (hr : optLt r s.length = true) (h : Exts s u) : inorder u r = inorder s r := by
  cases r with
  | none => rw [inorder, inorder, fuelR, inorderF_none, inorderF_none]
  | some a =>
    rw [optLt_some] at hr
    obtain ⟨t, rfl⟩ := h
    exact inorderF_stable s t hwf a hr (a + 1) (a + 1) (Nat.lt_succ_self a) (Nat.lt_succ_self a)

/-- Path-copying insert only appends to the store. -/
theorem insertGo_exts (s : Store) : ∀ f r k x, Exts s (insertGo s f r k x).1 := by
  intro f
  induction f with
  | zero =>
    intro r k x
    cases r with
    | none => exact exts_concat s _
    | some a => exact exts_refl s
  | succ f ih =>
    intro r k x
    cases r with
    | none => exact exts_concat s _
    | some a =>
      simp only [insertGo]
      cases hsa : s[a]? with
      | none => exact exts_refl s
      | some nd =>
        by_cases hk : k < nd._v.1
        · simp only [if_pos hk]
          rcases hgo : insertGo s f nd._l k x with ⟨s1, b, added⟩
          have hext : Exts s s1 := by
            have := ih nd._l k x
            rwa [hgo] at this
          cases added with
          | true => exact exts_trans hext (exts_concat s1 _)
          | false => exact exts_refl s
        · simp only [if_neg hk]
          by_cases hk2 : nd._v.1 < k
          · simp only [if_pos hk2]
            rcases hgo : insertGo s f nd._r k x with ⟨s1, b, added⟩
            have hext : Exts s s1 := by
              have := ih nd._r k x
              rwa [hgo] at this
            cases added with
            | true => exact exts_trans hext (exts_concat s1 _)
            | false => exact exts_refl s
          · simp only [if_neg hk2]
            exact exts_refl s

/-- Path-copying erase only appends to the store. -/
theorem eraseGo_exts (s : Store) : ∀ f r k, Exts s (eraseGo s f r k).1 := by
  intro f
  induction f with
  | zero =>
    intro r k
    cases r with
    | none => exact exts_refl s
    | some a => exact exts_refl s
  | succ f ih =>
    intro r k
    cases r with
    | none => exact exts_refl s
    | some a =>
      simp only [eraseGo]
      cases hsa : s[a]? with
      | none => exact exts_refl s
      | some nd =>
        by_cases hk : k < nd._v.1
        · simp only [if_pos hk]
          rcases hgo : eraseGo s f nd._l k with ⟨s1, l2, removed⟩
          have hext : Exts s s1 := by
            have := ih nd._l k
            rwa [hgo] at this
          cases removed with
          | true => exact exts_trans hext (exts_concat s1 _)
          | false => exact exts_refl s
        · simp only [if_neg hk]
          by_cases hk2 : nd._v.1 < k
          · simp only [if_pos hk2]
            rcases hgo : eraseGo s f nd._r k with ⟨s1, r2, removed⟩
            have hext : Exts s s1 := by
              have := ih nd._r k
              rwa [hgo] at this
            cases removed with
            | true => exact exts_trans hext (exts_concat s1 _)
            | false => exact exts_refl s
          · simp only [if_neg hk2]
            split
            · exact exts_refl s
            · exact exts_refl s
            · rename_i la ra hla hra
              rcases hgo : eraseGo s f (some ra) (findMinF s f ra).1 with ⟨s1, r2, removed⟩
              have hext : Exts s s1 := by
                have := ih (some ra) (findMinF s f ra).1
                rwa [hgo] at this
              exact exts_trans hext (exts_concat s1 _)

/-- One operation (insert or erase) only appends to the store. -/
theorem applyOp_exts (p : Store × Option Nat) (op : Op) : Exts p.1 (applyOp p op).1 := by
  cases op with
  | ins k x =>
    simp only [applyOp, mapInsert]
    rcases hgo : insertGo p.1 (fuelR p.2) p.2 k x with ⟨s2, b, added⟩
    have := insertGo_exts p.1 (fuelR p.2) p.2 k x
    rwa [hgo] at this
  | del k =>
    simp only [applyOp, mapErase]
    rcases hgo : eraseGo p.1 (fuelR p.2) p.2 k with ⟨s2, r2, removed⟩
    have := eraseGo_exts p.1 (fuelR p.2) p.2 k
    rwa [hgo] at this

/-- Any sequence of operations only appends to the store. -/
theorem applyOps_exts : ∀ (ops : List Op) (p : Store × Option Nat),
    Exts p.1 (applyOps p ops).1 := by
  intro ops
  induction ops with
  | nil => intro p; exact exts_refl p.1
  | cons op ops ih =>
    intro p
    exact exts_trans (applyOp_exts p op) (ih (applyOp p op))

/-- C1: persistence.  For a handle `v1 = (s, r1)` in a well-formed store,
applying `insert` or `erase` (producing `v2`) and then any sequence of
further operations to `v2` leaves the in-order key/value sequence read
through `v1`'s root unchanged: operations only append fresh nodes and never
modify a slot an old version reads. -/
theorem c1_persistence (s : Store) (r1 : Option Nat) (op : Op) (ops : List Op)
    (hwf : wfStore s) (hb : optLt r1 s.length = true) :
    inorder (applyOps (applyOp (s, r1) op) ops).1 r1 = inorder s r1 := by
  have hext : Exts s (applyOps (applyOp (s, r1) op) ops).1 :=
    exts_trans (applyOp_exts (s, r1) op) (applyOps_exts ops (applyOp (s, r1) op))
  exact inorder_exts hwf hb hext

/-- C1 witness: on the concrete one-node map (key 5), inserting key 3 and
then erasing key 5 and inserting key 7 leaves the original version's
in-order sequence `[(5, 50)]` intact. -/
theorem c1_persistence_witness :
    wfStore store5 ∧ optLt (some 0) store5.length = true ∧
      inorder (applyOps (applyOp (store5, some 0) (.ins 3 30)) [.del 5, .ins 7 70]).1
          (some 0) =
        inorder store5 (some 0) ∧
      inorder store5 (some 0) = [(5, 50)] :=
  ⟨by decide, by decide,
    c1_persistence store5 (some 0) (.ins 3 30) [.del 5, .ins 7 70] (by decide) (by decide),
    by decide⟩

theorem insertGo_none (s : Store) (f k x : Nat) :
    insertGo s f none k x = (s ++ [⟨(k, x), 1, none, none⟩], s.length, true) := by
  cases f <;> rfl

theorem sizeAt_concat (s : Store) (nd : node) :
    sizeAt (s ++ [nd]) (some s.length) = nd._n := by
  simp only [sizeAt, lookup_concat]

theorem mapSize_eq_sizeAt (s : Store) (r : Option Nat) : mapSize s r = sizeAt s r := by
  cases r with
  | none => rfl
  | some a =>
    simp only [mapSize, sizeAt]
    cases s[a]? <;> rfl

/-- Correctness of the spec-modelled path-copying insert on a well-formed
store: when the key is absent, the insert reports "added", preserves store
well-formedness, and the new version finds the key with the inserted value
and has stored size one larger than the old version. -/
theorem insertGo_correct (s : Store) (hwf : wfStore s) :
    ∀ f r k x, optLt r s.length = true → optLt r f = true →
      sizeInvF s f r = true → findF s f r k = none →
      (insertGo s f r k x).2.2 = true ∧
      wfStore (insertGo s f r k x).1 ∧
      (insertGo s f r k x).2.1 < (insertGo s f r k x).1.length ∧
      findF (insertGo s f r k x).1 ((insertGo s f r k x).2.1 + 1)
        (some (insertGo s f r k x).2.1) k = some x ∧
      sizeAt (insertGo s f r k x).1 (some (insertGo s f r k x).2.1) = sizeAt s r + 1 := by
  intro f
  induction f with
  | zero =>
    intro r k x hb hfu hsz hfind
    cases r with
    | some a => rw [optLt_some] at hfu; omega
    | none =>
      rw [insertGo_none]
      refine ⟨rfl, wf_concat hwf rfl, by simp, ?_, ?_⟩
      · simp only [findF, lookup_concat]
        simp [lt_irrefl]
      · simp only [sizeAt, lookup_concat]
  | succ f ih =>
    intro r k x hb hfu hsz hfind
    cases r with
    | none =>
      rw [insertGo_none]
      refine ⟨rfl, wf_concat hwf rfl, by simp, ?_, ?_⟩
      · simp only [findF, lookup_concat]
        simp [lt_irrefl]
      · simp only [sizeAt, lookup_concat]
    | some a =>
      rw [optLt_some] at hb hfu
      cases hsa : s[a]? with
      | none => simp [sizeInvF, hsa] at hsz
      | some nd =>
        simp only [sizeInvF, hsa, Bool.and_eq_true, beq_iff_eq] at hsz
        obtain ⟨⟨hn, hsl⟩, hsr⟩ := hsz
        simp only [findF, hsa] at hfind
        obtain ⟨hl, hr⟩ := okNode_parts (wf_lookup hwf hsa)
        by_cases hk : k < nd._v.1
        · rw [if_pos hk] at hfind
          have ihL := ih nd._l k x (optLt_mono hl hb.le)
            (optLt_mono hl (by omega)) hsl hfind
          simp only [insertGo, hsa, if_pos hk]
          rcases hgo : insertGo s f nd._l k x with ⟨s1, b, added⟩
          rw [hgo] at ihL
          obtain ⟨hadd, hwf1, hblen, hfind1, hsz1⟩ := ihL
          dsimp only at hadd hblen hfind1 hsz1
          subst hadd
          simp only [if_true]
          have hext : Exts s s1 := by
            have := insertGo_exts s f nd._l k x
            rwa [hgo] at this
          have hlen : s.length ≤ s1.length := exts_length hext
          have hrs1 : optLt nd._r s1.length = true :=
            optLt_mono hr (hb.le.trans hlen)
          refine ⟨trivial, ?_, by simp, ?_, ?_⟩
          · refine wf_concat hwf1 ?_
            simp only [okNode, Bool.and_eq_true]
            exact ⟨optLt_some.mpr hblen, hrs1⟩
          · simp only [findF, lookup_concat]
            rw [if_pos hk]
            have := findF_stable s1 [⟨nd._v, 1 + sizeAt s1 (some b) + sizeAt s1 nd._r,
              some b, nd._r⟩] hwf1 b hblen s1.length (b + 1) k hblen (Nat.lt_succ_self b)
            rw [this]
            exact hfind1
          · rw [sizeAt_concat]
            show 1 + sizeAt s1 (some b) + sizeAt s1 nd._r = sizeAt s (some a) + 1
            have hrsz : sizeAt s1 nd._r = sizeAt s nd._r :=
              sizeAt_exts hext (optLt_mono hr hb.le)
            have hsza : sizeAt s (some a) = nd._n := by simp [sizeAt, hsa]
            rw [hsz1, hrsz, hsza, hn]
            omega
        · rw [if_neg hk] at hfind
          by_cases hk2 : nd._v.1 < k
          · rw [if_pos hk2] at hfind
            have ihR := ih nd._r k x (optLt_mono hr hb.le)
              (optLt_mono hr (by omega)) hsr hfind
            simp only [insertGo, hsa, if_neg hk, if_pos hk2]
            rcases hgo : insertGo s f nd._r k x with ⟨s1, b, added⟩
            rw [hgo] at ihR
            obtain ⟨hadd, hwf1, hblen, hfind1, hsz1⟩ := ihR
            dsimp only at hadd hblen hfind1 hsz1
            subst hadd
            simp only [if_true]
            have hext : Exts s s1 := by
              have := insertGo_exts s f nd._r k x
              rwa [hgo] at this
            have hlen : s.length ≤ s1.length := exts_length hext
            have hls1 : optLt nd._l s1.length = true :=
              optLt_mono hl (hb.le.trans hlen)
            refine ⟨trivial, ?_, by simp, ?_, ?_⟩
            · refine wf_concat hwf1 ?_
              simp only [okNode, Bool.and_eq_true]
              exact ⟨hls1, optLt_some.mpr hblen⟩
            · simp only [findF, lookup_concat]
              rw [if_neg hk, if_pos hk2]
              have := findF_stable s1 [⟨nd._v, 1 + sizeAt s1 nd._l + sizeAt s1 (some b),
                nd._l, some b⟩] hwf1 b hblen s1.length (b + 1) k hblen (Nat.lt_succ_self b)
              rw [this]
              exact hfind1
            · rw [sizeAt_concat]
              show 1 + sizeAt s1 nd._l + sizeAt s1 (some b) = sizeAt s (some a) + 1
              have hlsz : sizeAt s1 nd._l = sizeAt s nd._l :=
                sizeAt_exts hext (optLt_mono hl hb.le)
              have hsza : sizeAt s (some a) = nd._n := by simp [sizeAt, hsa]
              rw [hsz1, hlsz, hsza, hn]
              omega
          · rw [if_neg hk2] at hfind
            simp at hfind

/-- C5: insert followed by find and size.  For a handle over a well-formed
store whose tree satisfies the size invariant and a key absent from the
handle, `v2 = v1.insert(k, x)` reports the key as added, `v2.find(k)`
yields `x`, and `v2.size() = v1.size() + 1`. -/
theorem c5_insert_find_size (s : Store) (r : Option Nat) (k x : Nat)
    (hwf : wfStore s) (hb : optLt r s.length = true)
    (hsz : sizeOk s r = true) (habs : mapFind s r k = none) :
    (mapInsert s r k x).2.2 = true ∧
    mapFind (mapInsert s r k x).1 (some (mapInsert s r k x).2.1) k = some x ∧
    mapSize (mapInsert s r k x).1 (some (mapInsert s r k x).2.1) = mapSize s r + 1 := by
  have hfu : optLt r (fuelR r) = true := by
    cases r with
    | none => rfl
    | some a => simp [optLt, fuelR]
  obtain ⟨h1, _, _, h4, h5⟩ :=
    insertGo_correct s hwf (fuelR r) r k x hb hfu hsz habs
  refine ⟨h1, h4, ?_⟩
  rw [mapSize_eq_sizeAt, mapSize_eq_sizeAt]
  exact h5

/-- C5 witness: inserting the absent key 3 into the concrete one-node map
(key 5) is reported as added, finds value 30 afterwards, and grows the
size from 1 to 2. -/
theorem c5_insert_find_size_witness :
    wfStore store5 ∧ optLt (some 0) store5.length = true ∧
      sizeOk store5 (some 0) = true ∧ mapFind store5 (some 0) 3 = none ∧
      ((mapInsert store5 (some 0) 3 30).2.2 = true ∧
        mapFind (mapInsert store5 (some 0) 3 30).1
            (some (mapInsert store5 (some 0) 3 30).2.1) 3 = some 30 ∧
        mapSize (mapInsert store5 (some 0) 3 30).1
            (some (mapInsert store5 (some 0) 3 30).2.1) =
          mapSize store5 (some 0) + 1) :=
  ⟨by decide, by decide, by decide, by decide,
    c5_insert_find_size store5 (some 0) 3 30 (by decide) (by decide) (by decide) (by decide)⟩

/-- C2: the claim states that `node::operator+` returns the node at sorted
position `i` on every tree satisfying the size and BST invariants.  On the
balanced three-node tree `store3` (which satisfies both invariants) with
`i = 0`, the loop exits immediately returning the root (value `(2, 20)`),
while the 0-th element of the in-order traversal is `(1, 10)`: the descent
is wrong. -/
theorem c2_rank_descent_wrong :
    wfStore store3 ∧ sizeOk store3 (some 2) = true ∧ bstOk store3 (some 2) = true ∧
    mapSize store3 (some 2) = 3 ∧
    (inorder store3 (some 2))[0]? = some (1, 10) ∧
    (∀ f, opPlus store3 (f + 1) 2 0 = .ok 2) ∧
    ((store3[2]?).getD dnode)._v = (2, 20) ∧ ((2, 20) : Nat × Nat) ≠ (1, 10) :=
  ⟨by decide, by decide, by decide, by decide, by decide, fun f => rfl, by decide, by decide⟩

/-- C3: the claim states that the loop of `node::operator+` terminates
without ever following an absent child reference whenever the invariants
hold and `0 ≤ i < size`.  On the valid single-node tree `store1` with
`i = 0` the very first iteration evaluates `next->left()` with
`next = root->right()` absent, i.e. it dereferences a null reference, and
no step budget ever makes it return a node. -/
theorem c3_rank_descent_faults :
    wfStore store1 ∧ sizeOk store1 (some 0) = true ∧ bstOk store1 (some 0) = true ∧
    mapSize store1 (some 0) = 1 ∧
    opPlus store1 1 0 0 = .err ∧
    (∀ f a, opPlus store1 f 0 0 ≠ .ok a) := by
  refine ⟨by decide, by decide, by decide, by decide, by decide, ?_⟩
  intro f a
  cases f <;> simp [opPlus, opPlusLoop, store1]

/-- C4: the claim states that every node the program can construct satisfies
`_n == 1 + size(left) + size(right)`.  The only implemented node constructor
(`node(value v) : _v(v), _n(0)`, line 24) initialises `_n` to 0 while both
children are absent, so the freshly constructed node violates the invariant
(`0 ≠ 1`). -/
theorem c4_constructed_node_violates_size_inv :
    ∀ v : Nat × Nat, (nodeNew v)._n = 0 ∧ sizeOk [nodeNew v] (some 0) = false :=
  fun _ => ⟨rfl, rfl⟩

/-- C6: a default-constructed map has an absent root and reports `size() = 0`
and `empty() = true`; for every map, `size()` is the root node's stored count
`_n` when a root is present and 0 otherwise, and `empty()` is `size() == 0`. -/
theorem c6_default_map_size_empty :
    ∀ s : Store,
      mapSize s defaultRoot = 0 ∧ mapEmpty s defaultRoot = true ∧
      (∀ r, mapEmpty s r = (mapSize s r == 0)) ∧
      (∀ a, mapSize s (some a) = ((s[a]?).getD dnode)._n) :=
  fun _ => ⟨rfl, rfl, fun _ => rfl, fun _ => rfl⟩

/-- C7 counterexample: the claim states that iterator equality holds iff the
two cursors reference the identical root and hold equal rank indices.  Two
cursors with equal index 0 but different roots (addresses 0 and 1) compare
equal under `iterator::operator==`, refuting the claim as stated. -/
theorem c7_iter_eq_counterexample :
    ¬ (iterEq ⟨0, some 0⟩ ⟨0, some 1⟩ = true ↔
        ((⟨0, some 0⟩ : iter)._root = (⟨0, some 1⟩ : iter)._root ∧
         (⟨0, some 0⟩ : iter)._index = (⟨0, some 1⟩ : iter)._index)) := by
  decide

/-- C7 amended: `iterator::operator==` (and `const_iterator::operator==`)
returns true iff the two rank indices are equal — the root is not compared —
and `operator!=` is its negation. -/
theorem c7_iter_eq_index_only :
    ∀ i j : iter,
      (iterEq i j = true ↔ i._index = j._index) ∧ iterNe i j = !iterEq i j ∧
      (citerEq i j = true ↔ i._index = j._index) ∧ citerNe i j = !citerEq i j :=
  fun i j => ⟨by simp [iterEq], rfl, by simp [citerEq], rfl⟩

/-- C8: the claim states that dereferencing a cursor with rank index `i`
yields the element at sorted position `i` of the root's in-order traversal.
Dereference delegates to the rank descent of `node::operator+`; on the valid
tree `store3` a cursor with index 0 dereferences to the root node with value
`(2, 20)`, while the in-order element at position 0 is `(1, 10)`. -/
theorem c8_deref_wrong_element :
    wfStore store3 ∧ sizeOk store3 (some 2) = true ∧ bstOk store3 (some 2) = true ∧
    (inorder store3 (some 2))[0]? = some (1, 10) ∧
    (∀ f, iterDeref store3 (f + 1) ⟨0, some 2⟩ = .ok 2) ∧
    ((store3[2]?).getD dnode)._v = (2, 20) ∧ ((2, 20) : Nat × Nat) ≠ (1, 10) :=
  ⟨by decide, by decide, by decide, by decide, fun f => rfl, by decide, by decide⟩

/-- C9: every node produced by the node constructor has `_n = 0` and both
children absent, and a map whose root is such a fresh node reports
`size() = 0` and `empty() = true` although the node holds an element. -/
theorem c9_fresh_node_zero_count :
    ∀ v : Nat × Nat,
      (nodeNew v)._n = 0 ∧ (nodeNew v)._l = none ∧ (nodeNew v)._r = none ∧
      mapSize [nodeNew v] (some 0) = 0 ∧ mapEmpty [nodeNew v] (some 0) = true :=
  fun _ => ⟨rfl, rfl, rfl, rfl, rfl⟩

/-- C10: `value_comp()(x, y)` is exactly `key_comp()(x.first, y.first)`, and
the result never depends on the mapped values. -/
theorem c10_value_comp_keys_only :
    ∀ (K T : Type) (m : mapH K T) (x y : K × T) (xv yv : T),
      value_comp m x y = key_comp m x.1 y.1 ∧
      value_comp m (x.1, xv) (y.1, yv) = value_comp m x y :=
  fun _ _ _ _ _ _ _ => ⟨rfl, rfl⟩

end PMap
